import Mathlib

/-!
# Verification of the beets path-legalization and consensus core

The repository ships the test suite `test/test_util.py` for the functions
`sanitize_path`, `truncate_path`, `legalize_path`, `plurality` and
`get_most_common_tags` of `beets.util`, together with a design document.
The implementation module itself is not part of the source tree, so the
definitions below are modelled from the specification, constrained at every
point the tests pin down (the tests fix the expected input/output pairs; the
`get_max_filename_length` oracle is the parameter `L`, fixed to 5 by the
tests).

Strings are modelled as `List Char`; byte-level behaviour (the Python code
truncates `s.encode("utf-8")` and decodes back with errors ignored) is
modelled by an explicit UTF-8 encoder and a byte decoder that drops invalid
sequences.
-/

namespace Beets

/-! ## UTF-8 byte model -/

/-- Number of bytes of the UTF-8 encoding of a character. -/
def charSize (c : Char) : Nat :=
  if c.toNat < 0x80 then 1
  else if c.toNat < 0x800 then 2
  else if c.toNat < 0x10000 then 3
  else 4

/-- UTF-8 encoding of a single character, as a list of byte values. -/
def encodeChar (c : Char) : List Nat :=
  let n := c.toNat
  if n < 0x80 then [n]
  else if n < 0x800 then [0xC0 + n / 0x40, 0x80 + n % 0x40]
  else if n < 0x10000 then
    [0xE0 + n / 0x1000, 0x80 + n / 0x40 % 0x40, 0x80 + n % 0x40]
  else
    [0xF0 + n / 0x40000, 0x80 + n / 0x1000 % 0x40, 0x80 + n / 0x40 % 0x40,
      0x80 + n % 0x40]

/-- UTF-8 encoding of a string (list of characters). -/
def utf8Encode (s : List Char) : List Nat :=
  (s.map encodeChar).flatten

/-- Encoded byte length of a string. -/
def utf8Len (s : List Char) : Nat :=
  (s.map charSize).sum

/-- Longest prefix of `s` whose encoded byte length is at most `n`.
This is the character-level description of byte truncation. -/
def takeBytes (n : Nat) : List Char → List Char
  | [] => []
  | c :: cs => if charSize c ≤ n then c :: takeBytes (n - charSize c) cs else []

/-- One-byte-at-a-time UTF-8 decoding state machine that silently drops
invalid or incomplete sequences, modelling Python's
`bytes.decode("utf-8", errors="ignore")` on the byte strings produced by
truncating a valid encoding.  The state is `none` when the next byte must
start a character, and `some (acc, need)` in the middle of a multi-byte
character with accumulated high bits `acc` and `need` continuation bytes
still required. -/
def decodeLoop : Option (Nat × Nat) → List Nat → List Char
  | _, [] => []
  | none, b :: bs =>
    if b < 0x80 then Char.ofNat b :: decodeLoop none bs
    else if b < 0xC2 then decodeLoop none bs
    else if b < 0xE0 then decodeLoop (some (b - 0xC0, 1)) bs
    else if b < 0xF0 then decodeLoop (some (b - 0xE0, 2)) bs
    else if b < 0xF8 then decodeLoop (some (b - 0xF0, 3)) bs
    else decodeLoop none bs
  | some (acc, need), b :: bs =>
    if 0x80 ≤ b ∧ b < 0xC0 then
      if need ≤ 1 then Char.ofNat (acc * 0x40 + (b - 0x80)) :: decodeLoop none bs
      else decodeLoop (some (acc * 0x40 + (b - 0x80), need - 1)) bs
    else
      -- invalid continuation: the pending character is dropped and `b` is
      -- reinterpreted as the start of a character
      if b < 0x80 then Char.ofNat b :: decodeLoop none bs
      else if b < 0xC2 then decodeLoop none bs
      else if b < 0xE0 then decodeLoop (some (b - 0xC0, 1)) bs
      else if b < 0xF0 then decodeLoop (some (b - 0xE0, 2)) bs
      else if b < 0xF8 then decodeLoop (some (b - 0xF0, 3)) bs
      else decodeLoop none bs

/-- Decoding with errors ignored, starting outside any character. -/
def decodeIgnore (l : List Nat) : List Char :=
  decodeLoop none l

/-- Modelled from the spec: `truncate_to_limit` bytewise truncation of one
segment (the implementation in `beets.util` is not in the source tree).
The segment is encoded to UTF-8 bytes, cut at `maxBytes`, and decoded back
ignoring a partial trailing character — exactly the
`s.encode()[:n].decode("utf-8", "ignore")` idiom. -/
def truncate_str (s : List Char) (maxBytes : Nat) : List Char :=
  let bytes := utf8Encode s
  if bytes.length ≤ maxBytes then s else decodeIgnore (bytes.take maxBytes)

/-! ## Path components -/

/-- Split a path on the separator `/` (the tests normalise `os.path.sep`
to the platform separator; we fix the POSIX one). `"".split` gives `[""]`,
as in Python. -/
def splitSep : List Char → List (List Char)
  | [] => [[]]
  | c :: cs =>
    match splitSep cs with
    | [] => [[]]
    | seg :: segs => if c = '/' then [] :: seg :: segs else (c :: seg) :: segs

/-- Join components with the separator `/`. -/
def joinSep : List (List Char) → List Char
  | [] => []
  | [c] => c
  | c :: cs => c ++ '/' :: joinSep cs

/-- Modelled from the spec and Python's `os.path.splitext` on a single
component: split off the final dot-suffix, unless every character before
the last dot is itself a dot (so `".bashrc"` and `"..."` have no
extension). -/
def splitext (c : List Char) : List Char × List Char :=
  match c.reverse.span (fun ch => ch ≠ '.') with
  | (_, []) => (c, [])
  | (rext, _ :: rstem) =>
    if rstem.reverse.all (fun ch => ch = '.') then (c, [])
    else (rstem.reverse, '.' :: rext.reverse)

/-- Truncate the final path component: the extension (if any) is kept
intact and the stem is truncated to the remaining byte budget. -/
def truncate_comp (L : Nat) (c : List Char) : List Char :=
  if (splitext c).2 = [] then truncate_str c L
  else truncate_str (splitext c).1 (L - utf8Len (splitext c).2) ++ (splitext c).2

/-- Truncate every component: directory components bytewise, the final
component with extension preservation. -/
def truncComps (L : Nat) : List (List Char) → List (List Char)
  | [] => []
  | [c] => [truncate_comp L c]
  | c :: cs => truncate_str c L :: truncComps L cs

/-- Modelled from the spec: `beets.util.truncate_path` (not in the source
tree), with the `get_max_filename_length` oracle passed as `L`.  Each
component is truncated to at most `L` UTF-8 bytes; the final component's
dot-suffix is preserved. -/
def truncate_path (L : Nat) (p : List Char) : List Char :=
  joinSep (truncComps L (splitSep p))

/-! ## Replacement rules and sanitization

The replacement rules the repository uses are regular expressions of a few
fixed shapes (a literal, an end-anchored literal, a character class, the
control-character class `[\x00-\x1f]`, `^\.`, `\.$` and `\s+$`).  `Pat`
enumerates exactly these shapes and `applyPat` implements `re.sub` for
them (every non-overlapping occurrence is replaced, left to right). -/

inductive Pat where
  | lit : List Char → Pat
  | litEnd : List Char → Pat
  | chars : List Char → Pat
  | ctrl : Pat
  | leadingDot : Pat
  | trailingDot : Pat
  | trailingWS : Pat
deriving DecidableEq

/-- A replacement rule: a pattern and the replacement text. -/
abbrev Rule : Type := Pat × List Char

/-- Replace every non-overlapping occurrence of the literal `p0 :: ps`,
scanning left to right, as `re.sub` does for a plain literal pattern.
The fuel argument (instantiated with the input length, which bounds the
number of steps) only makes the recursion structural. -/
def subAllAux (p0 : Char) (ps rep : List Char) : Nat → List Char → List Char
  | 0, l => l
  | _, [] => []
  | fuel + 1, c :: cs =>
    if (p0 :: ps).isPrefixOf (c :: cs) then
      rep ++ subAllAux p0 ps rep fuel (cs.drop ps.length)
    else c :: subAllAux p0 ps rep fuel cs

/-- Replace every non-overlapping occurrence of a literal pattern. -/
def subAll (p0 : Char) (ps rep : List Char) (l : List Char) : List Char :=
  subAllAux p0 ps rep l.length l

/-- Whitespace characters matched by the regex class `\s`. -/
def isWS (c : Char) : Bool :=
  c = ' ' ∨ c = '\t' ∨ c = '\n' ∨ c = '\r' ∨ c = '\x0b' ∨ c = '\x0c'

/-- Apply one pattern/replacement pair to one path component, with
`re.sub` semantics for each supported pattern shape. -/
def applyPat (p : Pat) (rep : List Char) (l : List Char) : List Char :=
  match p with
  | .lit s =>
    match s with
    | [] => l
    | p0 :: ps => subAll p0 ps rep l
  | .litEnd s =>
    if s ≠ [] ∧ s.isSuffixOf l then l.take (l.length - s.length) ++ rep else l
  | .chars cs => l.foldr (fun c acc => (if c ∈ cs then rep else [c]) ++ acc) []
  | .ctrl => l.foldr (fun c acc => (if c.toNat < 0x20 then rep else [c]) ++ acc) []
  | .leadingDot =>
    match l with
    | '.' :: rest => rep ++ rest
    | _ => l
  | .trailingDot =>
    if l.getLast? = some '.' then l.dropLast ++ rep else l
  | .trailingWS =>
    let keep := (l.reverse.dropWhile (fun c => isWS c)).reverse
    if keep = l then l else keep ++ rep

/-- Apply a list of rules in order to one component. -/
def applyRules (rules : List Rule) (l : List Char) : List Char :=
  rules.foldl (fun acc r => applyPat r.1 r.2 acc) l

/-- Modelled from the spec: the built-in replacement set of `beets.util`
(not in the source tree).  The tests pin its effects: `/` and `\`,
a leading dot, control characters, the characters `<>:"?*|`, a trailing
dot and trailing whitespace are rewritten, on every platform (the
legalization tests observe `:` being replaced by `_` without mocking
Windows). -/
def CHAR_REPLACE : List Rule :=
  [(.chars ['\\', '/'], ['_']),
   (.leadingDot, ['_']),
   (.ctrl, []),
   (.chars ['<', '>', ':', '"', '?', '*', '|'], ['_']),
   (.trailingDot, ['_']),
   (.trailingWS, [])]

/-- Modelled from the spec: `beets.util.sanitize_path` (not in the source
tree).  The path is split into components; each component is rewritten by
the replacement rules; when a caller supplies custom rules they are used
*instead* of the built-in set (the test
`test_sanitize_with_custom_replace_overrides_built_in_sub` fixes this:
with an unrelated custom rule the built-in leading-dot rewrite does not
run). -/
def sanitize_path (p : List Char) (repl : List Rule) : List Char :=
  let rules := if repl = [] then CHAR_REPLACE else repl
  joinSep ((splitSep p).map (applyRules rules))

/-! ## Legalization -/

/-- Modelled from the spec: one legalization stage — sanitize (with the
given rules), append the extension, truncate each component by byte
length.  Returns the path and whether truncation changed it. -/
def legalize_stage (L : Nat) (p : List Char) (repl : List Rule) (ext : List Char) :
    List Char × Bool :=
  let q := sanitize_path p repl ++ ext
  let t := truncate_path L q
  (t, decide (t ≠ q))

/-- Modelled from the spec: `beets.util.legalize_path` (not in the source
tree), with the length oracle as `L`.  A first stage applies the caller's
rules; a second stage re-applies them to the first stage's (possibly
truncated) output; if the second stage again requires truncation, the
path is re-legalized from the first stage's output using the built-in
default rules, and the truncation flag of the second stage is returned.
The seven `test_replacements` cases fix this structure. -/
def legalize_path (L : Nat) (p : List Char) (repl : List Rule) (ext : List Char) :
    List Char × Bool :=
  let s1 := (legalize_stage L p repl ext).1
  let st2 := legalize_stage L s1 repl ext
  if st2.2 then ((legalize_stage L s1 [] ext).1, st2.2) else (st2.1, st2.2)

/-! ## Plurality (consensus aggregator) -/

/-- Distinct values of a list in first-seen order (the iteration order of
a Python `Counter`, which preserves insertion order).  The fuel argument
(instantiated with the input length, which bounds the number of steps)
only makes the recursion structural. -/
def firstSeenAux {α : Type} [DecidableEq α] : Nat → List α → List α
  | 0, _ => []
  | _, [] => []
  | fuel + 1, x :: xs => x :: firstSeenAux fuel (xs.filter (fun y => y ≠ x))

/-- Distinct values of a list in first-seen order. -/
def firstSeen {α : Type} [DecidableEq α] (l : List α) : List α :=
  firstSeenAux l.length l

/-- First element of `b :: xs` with the (strictly) greatest number of
occurrences in `l`; later elements win only with a strictly greater
count, as Python's `max` / `Counter.most_common` keep the earliest
maximum. -/
def bestOf {α : Type} [DecidableEq α] (l : List α) : α → List α → α
  | b, [] => b
  | b, x :: xs => if l.count x > l.count b then bestOf l x xs else bestOf l b xs

/-- Modelled from the spec: `beets.util.plurality` (not in the source
tree).  Returns the most frequent value and its count, `none` for the
empty sequence (the Python code raises `ValueError("sequence must be
non-empty")`). -/
def plurality {α : Type} [DecidableEq α] (l : List α) : Option (α × Nat) :=
  match firstSeen l with
  | [] => none
  | d :: ds => let w := bestOf l d ds; some (w, l.count w)

/-! ## Field aggregation (`get_most_common_tags`) -/

/-- The item fields exercised by the tests.  A beets `Item` yields a
typed zero value (empty string, numeric zero) for a field that was never
set, so every item always reports a value for every field. -/
structure Item where
  artist : List Char
  albumartist : List Char
  album : List Char
  label : List Char
  year : Nat
deriving DecidableEq

/-- Most-common-value mapping for the fields of interest. -/
structure Likelies where
  artist : List Char
  albumartist : List Char
  album : List Char
  label : List Char
  year : Nat
deriving DecidableEq

/-- Per-field unanimity flags. -/
structure Consensus where
  artist : Bool
  albumartist : Bool
  album : Bool
  label : Bool
  year : Bool
deriving DecidableEq

/-- Plurality value of a field's observations together with its
unanimity flag (frequency equal to the number of observations). -/
def fieldStat {α : Type} [DecidableEq α] (dflt : α) (vals : List α) : α × Bool :=
  match plurality vals with
  | some (v, n) => (v, decide (n = vals.length))
  | none => (dflt, true)

/-- Modelled from the spec: `beets.util.get_most_common_tags` (not in the
source tree).  Each field of interest is aggregated by `plurality`; the
`albumartist` field overrides the `artist` field: when any record has a
non-empty `albumartist`, the `artist` slot of the likely mapping and its
consensus flag are copied from the `albumartist` aggregation.  `none` on
an empty item list (the Python code asserts non-emptiness). -/
def get_most_common_tags (items : List Item) : Option (Likelies × Consensus) :=
  match items with
  | [] => none
  | _ :: _ =>
    let aa := fieldStat [] (items.map (fun i => i.albumartist))
    let ar := fieldStat [] (items.map (fun i => i.artist))
    let al := fieldStat [] (items.map (fun i => i.album))
    let lb := fieldStat [] (items.map (fun i => i.label))
    let yr := fieldStat 0 (items.map (fun i => i.year))
    let overridden := (items.map (fun i => i.albumartist)).any (fun v => v ≠ [])
    some
      ({ artist := if overridden then aa.1 else ar.1,
         albumartist := aa.1, album := al.1, label := lb.1, year := yr.1 },
       { artist := if overridden then aa.2 else ar.2,
         albumartist := aa.2, album := al.2, label := lb.2, year := yr.2 })

/-! ## Lemmas: the UTF-8 byte model -/

theorem char_toNat_lt (c : Char) : c.toNat < 0x110000 := by
  have h := c.valid
  simp [UInt32.isValidChar, Nat.isValidChar] at h
  change c.val.toNat < _
  rcases h with h | h <;> omega

theorem charSize_pos (c : Char) : 1 ≤ charSize c := by
  unfold charSize; split_ifs <;> omega

theorem encodeChar_length (c : Char) : (encodeChar c).length = charSize c := by
  simp only [encodeChar, charSize]; split_ifs <;> simp

theorem utf8Encode_cons (c : Char) (s : List Char) :
    utf8Encode (c :: s) = encodeChar c ++ utf8Encode s := by
  simp [utf8Encode]

theorem utf8Len_nil : utf8Len [] = 0 := rfl

theorem utf8Len_cons (c : Char) (s : List Char) :
    utf8Len (c :: s) = charSize c + utf8Len s := by
  simp [utf8Len]

theorem utf8Len_append (s t : List Char) :
    utf8Len (s ++ t) = utf8Len s + utf8Len t := by
  simp [utf8Len]

theorem utf8Encode_length (s : List Char) :
    (utf8Encode s).length = utf8Len s := by
  induction s with
  | nil => rfl
  | cons c s ih => simp [utf8Encode_cons, utf8Len_cons, encodeChar_length, ih]

theorem decodeLoop_nil (st : Option (Nat × Nat)) : decodeLoop st [] = [] := by
  cases st with
  | none => rfl
  | some p => rcases p with ⟨a, b⟩; rfl

theorem decodeLoop_start_ascii (b : Nat) (bs : List Nat) (h : b < 0x80) :
    decodeLoop none (b :: bs) = Char.ofNat b :: decodeLoop none bs := by
  simp only [decodeLoop, if_pos h]

theorem decodeLoop_start2 (b : Nat) (bs : List Nat) (h1 : 0xC2 ≤ b) (h2 : b < 0xE0) :
    decodeLoop none (b :: bs) = decodeLoop (some (b - 0xC0, 1)) bs := by
  simp only [decodeLoop, if_neg (by omega : ¬ b < 0x80),
    if_neg (by omega : ¬ b < 0xC2), if_pos h2]

theorem decodeLoop_start3 (b : Nat) (bs : List Nat) (h1 : 0xE0 ≤ b) (h2 : b < 0xF0) :
    decodeLoop none (b :: bs) = decodeLoop (some (b - 0xE0, 2)) bs := by
  simp only [decodeLoop, if_neg (by omega : ¬ b < 0x80),
    if_neg (by omega : ¬ b < 0xC2), if_neg (by omega : ¬ b < 0xE0), if_pos h2]

theorem decodeLoop_start4 (b : Nat) (bs : List Nat) (h1 : 0xF0 ≤ b) (h2 : b < 0xF8) :
    decodeLoop none (b :: bs) = decodeLoop (some (b - 0xF0, 3)) bs := by
  simp only [decodeLoop, if_neg (by omega : ¬ b < 0x80),
    if_neg (by omega : ¬ b < 0xC2), if_neg (by omega : ¬ b < 0xE0),
    if_neg (by omega : ¬ b < 0xF0), if_pos h2]

theorem decodeLoop_cont_last (acc b : Nat) (bs : List Nat)
    (h1 : 0x80 ≤ b) (h2 : b < 0xC0) :
    decodeLoop (some (acc, 1)) (b :: bs) =
      Char.ofNat (acc * 0x40 + (b - 0x80)) :: decodeLoop none bs := by
  simp only [decodeLoop, if_pos (And.intro h1 h2), if_pos (by omega : (1 : Nat) ≤ 1)]

theorem decodeLoop_cont_mid (acc need b : Nat) (bs : List Nat)
    (h1 : 0x80 ≤ b) (h2 : b < 0xC0) (h3 : 2 ≤ need) :
    decodeLoop (some (acc, need)) (b :: bs) =
      decodeLoop (some (acc * 0x40 + (b - 0x80), need - 1)) bs := by
  simp only [decodeLoop, if_pos (And.intro h1 h2), if_neg (by omega : ¬ need ≤ 1)]

/-- Decoding a validly encoded character followed by anything yields that
character followed by the decoding of the remainder. -/
theorem decodeLoop_encodeChar (c : Char) (rest : List Nat) :
    decodeLoop none (encodeChar c ++ rest) = c :: decodeLoop none rest := by
  have hofn := Char.ofNat_toNat c
  have hmax : c.toNat < 0x110000 := char_toNat_lt c
  by_cases h1 : c.toNat < 0x80
  · have he : encodeChar c = [c.toNat] := by simp [encodeChar, h1]
    rw [he, List.cons_append, List.nil_append, decodeLoop_start_ascii _ _ h1, hofn]
  · by_cases h2 : c.toNat < 0x800
    · have he : encodeChar c = [0xC0 + c.toNat / 0x40, 0x80 + c.toNat % 0x40] := by
        simp [encodeChar, h1, h2]
      rw [he]
      simp only [List.cons_append, List.nil_append]
      rw [decodeLoop_start2 _ _ (by omega) (by omega),
        decodeLoop_cont_last _ _ _ (by omega) (by omega)]
      have harg : (0xC0 + c.toNat / 0x40 - 0xC0) * 0x40 +
          (0x80 + c.toNat % 0x40 - 0x80) = c.toNat := by omega
      rw [harg, hofn]
    · by_cases h3 : c.toNat < 0x10000
      · have he : encodeChar c =
            [0xE0 + c.toNat / 0x1000, 0x80 + c.toNat / 0x40 % 0x40, 0x80 + c.toNat % 0x40] := by
          simp [encodeChar, h1, h2, h3]
        rw [he]
        simp only [List.cons_append, List.nil_append]
        rw [decodeLoop_start3 _ _ (by omega) (by omega),
          decodeLoop_cont_mid _ _ _ _ (by omega) (by omega) (by omega),
          decodeLoop_cont_last _ _ _ (by omega) (by omega)]
        have harg : ((0xE0 + c.toNat / 0x1000 - 0xE0) * 0x40 +
            (0x80 + c.toNat / 0x40 % 0x40 - 0x80)) * 0x40 +
            (0x80 + c.toNat % 0x40 - 0x80) = c.toNat := by omega
        rw [harg, hofn]
      · have he : encodeChar c =
            [0xF0 + c.toNat / 0x40000, 0x80 + c.toNat / 0x1000 % 0x40,
              0x80 + c.toNat / 0x40 % 0x40, 0x80 + c.toNat % 0x40] := by
          simp [encodeChar, h1, h2, h3]
        rw [he]
        simp only [List.cons_append, List.nil_append]
        rw [decodeLoop_start4 _ _ (by omega) (by omega),
          decodeLoop_cont_mid _ _ _ _ (by omega) (by omega) (by omega),
          decodeLoop_cont_mid _ _ _ _ (by omega) (by omega) (by omega),
          decodeLoop_cont_last _ _ _ (by omega) (by omega)]
        have harg : (((0xF0 + c.toNat / 0x40000 - 0xF0) * 0x40 +
            (0x80 + c.toNat / 0x1000 % 0x40 - 0x80)) * 0x40 +
            (0x80 + c.toNat / 0x40 % 0x40 - 0x80)) * 0x40 +
            (0x80 + c.toNat % 0x40 - 0x80) = c.toNat := by omega
        rw [harg, hofn]

/-- Decoding a strict prefix of one character's encoding yields nothing. -/
theorem decodeLoop_encodeChar_partial (c : Char) (k : Nat) (hk : k < charSize c) :
    decodeLoop none ((encodeChar c).take k) = [] := by
  have hmax : c.toNat < 0x110000 := char_toNat_lt c
  by_cases h1 : c.toNat < 0x80
  · have hs : charSize c = 1 := by simp [charSize, h1]
    have hk0 : k = 0 := by omega
    subst hk0
    simp [decodeLoop_nil]
  · by_cases h2 : c.toNat < 0x800
    · have hs : charSize c = 2 := by simp [charSize, h1, h2]
      have he : encodeChar c = [0xC0 + c.toNat / 0x40, 0x80 + c.toNat % 0x40] := by
        simp [encodeChar, h1, h2]
      rw [he]
      rw [hs] at hk
      interval_cases k
      · simp [decodeLoop_nil]
      · rw [show ([0xC0 + c.toNat / 0x40, 0x80 + c.toNat % 0x40].take 1 : List Nat) =
          [0xC0 + c.toNat / 0x40] from rfl]
        rw [decodeLoop_start2 _ _ (by omega) (by omega), decodeLoop_nil]
    · by_cases h3 : c.toNat < 0x10000
      · have hs : charSize c = 3 := by simp [charSize, h1, h2, h3]
        have he : encodeChar c =
            [0xE0 + c.toNat / 0x1000, 0x80 + c.toNat / 0x40 % 0x40,
              0x80 + c.toNat % 0x40] := by
          simp [encodeChar, h1, h2, h3]
        rw [he]
        rw [hs] at hk
        interval_cases k
        · simp [decodeLoop_nil]
        · rw [show ([0xE0 + c.toNat / 0x1000, 0x80 + c.toNat / 0x40 % 0x40,
            0x80 + c.toNat % 0x40].take 1 : List Nat) = [0xE0 + c.toNat / 0x1000]
            from rfl]
          rw [decodeLoop_start3 _ _ (by omega) (by omega), decodeLoop_nil]
        · rw [show ([0xE0 + c.toNat / 0x1000, 0x80 + c.toNat / 0x40 % 0x40,
            0x80 + c.toNat % 0x40].take 2 : List Nat) =
            [0xE0 + c.toNat / 0x1000, 0x80 + c.toNat / 0x40 % 0x40] from rfl]
          rw [decodeLoop_start3 _ _ (by omega) (by omega),
            decodeLoop_cont_mid _ _ _ _ (by omega) (by omega) (by omega),
            decodeLoop_nil]
      · have hs : charSize c = 4 := by simp [charSize, h1, h2, h3]
        have he : encodeChar c =
            [0xF0 + c.toNat / 0x40000, 0x80 + c.toNat / 0x1000 % 0x40,
              0x80 + c.toNat / 0x40 % 0x40, 0x80 + c.toNat % 0x40] := by
          simp [encodeChar, h1, h2, h3]
        rw [he]
        rw [hs] at hk
        interval_cases k
        · simp [decodeLoop_nil]
        · rw [show ([0xF0 + c.toNat / 0x40000, 0x80 + c.toNat / 0x1000 % 0x40,
            0x80 + c.toNat / 0x40 % 0x40, 0x80 + c.toNat % 0x40].take 1 : List Nat) =
            [0xF0 + c.toNat / 0x40000] from rfl]
          rw [decodeLoop_start4 _ _ (by omega) (by omega), decodeLoop_nil]
        · rw [show ([0xF0 + c.toNat / 0x40000, 0x80 + c.toNat / 0x1000 % 0x40,
            0x80 + c.toNat / 0x40 % 0x40, 0x80 + c.toNat % 0x40].take 2 : List Nat) =
            [0xF0 + c.toNat / 0x40000, 0x80 + c.toNat / 0x1000 % 0x40] from rfl]
          rw [decodeLoop_start4 _ _ (by omega) (by omega),
            decodeLoop_cont_mid _ _ _ _ (by omega) (by omega) (by omega),
            decodeLoop_nil]
        · rw [show ([0xF0 + c.toNat / 0x40000, 0x80 + c.toNat / 0x1000 % 0x40,
            0x80 + c.toNat / 0x40 % 0x40, 0x80 + c.toNat % 0x40].take 3 : List Nat) =
            [0xF0 + c.toNat / 0x40000, 0x80 + c.toNat / 0x1000 % 0x40,
              0x80 + c.toNat / 0x40 % 0x40] from rfl]
          rw [decodeLoop_start4 _ _ (by omega) (by omega),
            decodeLoop_cont_mid _ _ _ _ (by omega) (by omega) (by omega),
            decodeLoop_cont_mid _ _ _ _ (by omega) (by omega) (by omega),
            decodeLoop_nil]

theorem utf8Len_takeBytes_le (n : Nat) (s : List Char) : utf8Len (takeBytes n s) ≤ n := by
  induction s generalizing n with
  | nil => simp [takeBytes, utf8Len_nil]
  | cons c cs ih =>
    simp only [takeBytes]
    split_ifs with h
    · have := ih (n - charSize c)
      rw [utf8Len_cons]
      omega
    · simp [utf8Len_nil]

theorem takeBytes_isPrefix (n : Nat) (s : List Char) : takeBytes n s <+: s := by
  induction s generalizing n with
  | nil => simp [takeBytes]
  | cons c cs ih =>
    simp only [takeBytes]
    split_ifs with h
    · obtain ⟨t, ht⟩ := ih (n - charSize c)
      exact ⟨t, by rw [List.cons_append, ht]⟩
    · exact List.nil_prefix

theorem takeBytes_of_le (s : List Char) (n : Nat) (h : utf8Len s ≤ n) :
    takeBytes n s = s := by
  induction s generalizing n with
  | nil => rfl
  | cons c cs ih =>
    rw [utf8Len_cons] at h
    have hc : charSize c ≤ n := by omega
    simp only [takeBytes, if_pos hc]
    rw [ih (n - charSize c) (by omega)]

theorem takeBytes_length_lt (s : List Char) (n : Nat) (h : n < utf8Len s) :
    (takeBytes n s).length < s.length := by
  induction s generalizing n with
  | nil => rw [utf8Len_nil] at h; omega
  | cons c cs ih =>
    rw [utf8Len_cons] at h
    simp only [takeBytes]
    split_ifs with hc
    · have := ih (n - charSize c) (by omega)
      simp only [List.length_cons]
      omega
    · simp

/-- The decoder inverts the encoder, cut at any byte position: decoding
the first `n` bytes of the encoding yields the longest character prefix
that fits in `n` bytes. -/
theorem decode_take (s : List Char) (n : Nat) :
    decodeLoop none ((utf8Encode s).take n) = takeBytes n s := by
  induction s generalizing n with
  | nil => simp [utf8Encode, takeBytes, decodeLoop_nil]
  | cons c cs ih =>
    rw [utf8Encode_cons]
    by_cases h : charSize c ≤ n
    · rw [List.take_append_eq_append_take,
        List.take_of_length_le (by rw [encodeChar_length]; omega)]
      rw [encodeChar_length, decodeLoop_encodeChar, ih]
      simp only [takeBytes, if_pos h]
    · rw [List.take_append_eq_append_take, encodeChar_length,
        Nat.sub_eq_zero_of_le (by omega), List.take_zero, List.append_nil]
      have hpart := decodeLoop_encodeChar_partial c n (by omega)
      rw [hpart]
      simp only [takeBytes, if_neg h]

/-- Bytewise truncation agrees with the character-level longest-prefix
description: no partially encoded character is ever produced. -/
theorem truncate_str_eq_takeBytes (s : List Char) (n : Nat) :
    truncate_str s n = takeBytes n s := by
  simp only [truncate_str]
  split_ifs with h
  · rw [utf8Encode_length] at h
    exact (takeBytes_of_le s n h).symm
  · unfold decodeIgnore
    exact decode_take s n

theorem truncate_str_isPrefix (s : List Char) (n : Nat) : truncate_str s n <+: s := by
  rw [truncate_str_eq_takeBytes]; exact takeBytes_isPrefix n s

theorem utf8Len_truncate_str_le (s : List Char) (n : Nat) :
    utf8Len (truncate_str s n) ≤ n := by
  rw [truncate_str_eq_takeBytes]; exact utf8Len_takeBytes_le n s

theorem truncate_str_of_le (s : List Char) (n : Nat) (h : utf8Len s ≤ n) :
    truncate_str s n = s := by
  rw [truncate_str_eq_takeBytes]; exact takeBytes_of_le s n h

theorem truncate_str_length_lt (s : List Char) (n : Nat) (h : n < utf8Len s) :
    (truncate_str s n).length < s.length := by
  rw [truncate_str_eq_takeBytes]; exact takeBytes_length_lt s n h

theorem truncate_str_length_le (s : List Char) (n : Nat) :
    (truncate_str s n).length ≤ s.length :=
  (truncate_str_isPrefix s n).length_le

theorem utf8Encode_append (s t : List Char) :
    utf8Encode (s ++ t) = utf8Encode s ++ utf8Encode t := by
  simp [utf8Encode]

theorem utf8Encode_isPrefix_of_isPrefix (s t : List Char) (h : s <+: t) :
    utf8Encode s <+: utf8Encode t := by
  obtain ⟨r, hr⟩ := h
  exact ⟨utf8Encode r, by rw [← utf8Encode_append, hr]⟩

/-! ## Lemmas: path components -/

theorem utf8Len_pos (s : List Char) (h : s ≠ []) : 1 ≤ utf8Len s := by
  cases s with
  | nil => exact absurd rfl h
  | cons c cs =>
    rw [utf8Len_cons]
    have := charSize_pos c
    omega

theorem splitSep_cons (c : Char) (cs : List Char) :
    splitSep (c :: cs) =
      match splitSep cs with
      | [] => [[]]
      | seg :: segs => if c = '/' then [] :: seg :: segs else (c :: seg) :: segs := rfl

theorem splitSep_ne_nil (p : List Char) : splitSep p ≠ [] := by
  cases p with
  | nil => simp [splitSep]
  | cons c cs =>
    rw [splitSep_cons]
    rcases h : splitSep cs with _ | ⟨seg, segs⟩
    · simp
    · split_ifs <;> simp

theorem joinSep_single (a : List Char) : joinSep [a] = a := rfl

theorem joinSep_cons2 (a b : List Char) (rest : List (List Char)) :
    joinSep (a :: b :: rest) = a ++ '/' :: joinSep (b :: rest) := rfl

theorem joinSep_splitSep (p : List Char) : joinSep (splitSep p) = p := by
  induction p with
  | nil => rfl
  | cons c cs ih =>
    rw [splitSep_cons]
    rcases h : splitSep cs with _ | ⟨seg, segs⟩
    · exact absurd h (splitSep_ne_nil cs)
    · rw [h] at ih
      simp only
      split_ifs with hc
      · subst hc
        rw [joinSep_cons2]
        simpa using ih
      · cases segs with
        | nil =>
          rw [joinSep_single]
          rw [joinSep_single] at ih
          rw [ih]
        | cons s ss =>
          rw [joinSep_cons2, List.cons_append, ← joinSep_cons2, ih]

theorem dropWhile_head_false {α : Type} (p : α → Bool) (l : List α) (d : α)
    (rest : List α) (h : l.dropWhile p = d :: rest) : p d = false := by
  induction l with
  | nil => simp [List.dropWhile] at h
  | cons x xs ih =>
    rw [List.dropWhile_cons] at h
    by_cases hp : p x
    · rw [if_pos hp] at h
      exact ih h
    · rw [if_neg hp] at h
      cases h
      simpa using hp

theorem span_reverse_decomp (c : List Char) (rext rrest : List Char)
    (h : c.reverse.span (fun ch => ch ≠ '.') = (rext, rrest)) :
    c.reverse = rext ++ rrest := by
  have hsp : c.reverse.span (fun ch => ch ≠ '.') =
      (c.reverse.takeWhile (fun ch => ch ≠ '.'),
        c.reverse.dropWhile (fun ch => ch ≠ '.')) :=
    List.span_eq_take_drop _ _
  rw [h] at hsp
  have h1 : rext = c.reverse.takeWhile (fun ch => ch ≠ '.') :=
    congrArg Prod.fst hsp
  have h2 : rrest = c.reverse.dropWhile (fun ch => ch ≠ '.') :=
    congrArg Prod.snd hsp
  rw [h1, h2, List.takeWhile_append_dropWhile]

theorem span_reverse_dot (c : List Char) (rext : List Char) (d : Char)
    (rstem : List Char)
    (h : c.reverse.span (fun ch => ch ≠ '.') = (rext, d :: rstem)) : d = '.' := by
  have hsp : c.reverse.span (fun ch => ch ≠ '.') =
      (c.reverse.takeWhile (fun ch => ch ≠ '.'),
        c.reverse.dropWhile (fun ch => ch ≠ '.')) :=
    List.span_eq_take_drop _ _
  rw [h] at hsp
  have h2 : c.reverse.dropWhile (fun ch => ch ≠ '.') = d :: rstem :=
    (congrArg Prod.snd hsp).symm
  have := dropWhile_head_false _ _ _ _ h2
  simpa using this

theorem splitext_append (c : List Char) : (splitext c).1 ++ (splitext c).2 = c := by
  unfold splitext
  rcases h : c.reverse.span (fun ch => ch ≠ '.') with ⟨rext, rrest⟩
  cases rrest with
  | nil => simp
  | cons d rstem =>
    have hd : d = '.' := span_reverse_dot c rext d rstem h
    have hrev : c.reverse = rext ++ d :: rstem := span_reverse_decomp c _ _ h
    simp only
    split_ifs with hall
    · simp
    · simp only
      rw [← List.reverse_reverse c, hrev, hd]
      simp [List.reverse_append]

theorem splitext_snd_nil_or_fst_ne_nil (c : List Char) :
    (splitext c).2 = [] ∨ (splitext c).1 ≠ [] := by
  unfold splitext
  rcases hs : c.reverse.span (fun ch => ch ≠ '.') with ⟨rext, rrest⟩
  cases rrest with
  | nil => left; simp
  | cons d rstem =>
    simp only
    split_ifs with hall
    · left; simp
    · right
      intro hst
      have hst2 : rstem.reverse = [] := hst
      rw [hst2] at hall
      simp at hall

theorem splitext_stem_ne_nil (c : List Char) (h : (splitext c).2 ≠ []) :
    (splitext c).1 ≠ [] :=
  (splitext_snd_nil_or_fst_ne_nil c).resolve_left h

/-! ## Lemmas: component and path truncation -/

theorem truncate_comp_of_le (L : Nat) (c : List Char) (h : utf8Len c ≤ L) :
    truncate_comp L c = c := by
  unfold truncate_comp
  split_ifs with he
  · exact truncate_str_of_le c L h
  · have hce : (splitext c).1 ++ (splitext c).2 = c := splitext_append c
    have hlen : utf8Len (splitext c).1 + utf8Len (splitext c).2 = utf8Len c := by
      rw [← utf8Len_append, hce]
    rw [truncate_str_of_le _ _ (by omega), hce]

theorem truncate_comp_length_le (L : Nat) (c : List Char) :
    (truncate_comp L c).length ≤ c.length := by
  unfold truncate_comp
  split_ifs with he
  · exact truncate_str_length_le c L
  · have hce : (splitext c).1 ++ (splitext c).2 = c := splitext_append c
    have := truncate_str_length_le (splitext c).1 (L - utf8Len (splitext c).2)
    calc (truncate_str (splitext c).1 (L - utf8Len (splitext c).2) ++
            (splitext c).2).length
        = (truncate_str (splitext c).1 (L - utf8Len (splitext c).2)).length +
            (splitext c).2.length := List.length_append _ _
      _ ≤ (splitext c).1.length + (splitext c).2.length := by omega
      _ = c.length := by rw [← List.length_append, hce]

theorem truncate_comp_length_lt (L : Nat) (c : List Char) (h : L < utf8Len c) :
    (truncate_comp L c).length < c.length := by
  unfold truncate_comp
  split_ifs with he
  · exact truncate_str_length_lt c L h
  · have hce : (splitext c).1 ++ (splitext c).2 = c := splitext_append c
    have hlen : utf8Len (splitext c).1 + utf8Len (splitext c).2 = utf8Len c := by
      rw [← utf8Len_append, hce]
    have hstem : (splitext c).1 ≠ [] := splitext_stem_ne_nil c he
    have hpos : 1 ≤ utf8Len (splitext c).1 := utf8Len_pos _ hstem
    have hlt := truncate_str_length_lt (splitext c).1 (L - utf8Len (splitext c).2)
      (by omega)
    calc (truncate_str (splitext c).1 (L - utf8Len (splitext c).2) ++
            (splitext c).2).length
        = (truncate_str (splitext c).1 (L - utf8Len (splitext c).2)).length +
            (splitext c).2.length := List.length_append _ _
      _ < (splitext c).1.length + (splitext c).2.length := by omega
      _ = c.length := by rw [← List.length_append, hce]

/-- Sum of the character lengths of a component list. -/
def sumLen (cs : List (List Char)) : Nat := (cs.map List.length).sum

theorem sumLen_nil : sumLen [] = 0 := rfl

theorem sumLen_cons (c : List Char) (cs : List (List Char)) :
    sumLen (c :: cs) = c.length + sumLen cs := by
  simp [sumLen]

theorem truncComps_single (L : Nat) (c : List Char) :
    truncComps L [c] = [truncate_comp L c] := rfl

theorem truncComps_cons2 (L : Nat) (c d : List Char) (ds : List (List Char)) :
    truncComps L (c :: d :: ds) = truncate_str c L :: truncComps L (d :: ds) := rfl

theorem truncComps_of_fit (L : Nat) (l : List (List Char))
    (h : ∀ c ∈ l, utf8Len c ≤ L) : truncComps L l = l := by
  induction l with
  | nil => rfl
  | cons c rest ih =>
    cases rest with
    | nil => rw [truncComps_single, truncate_comp_of_le L c (h c (by simp))]
    | cons d ds =>
      rw [truncComps_cons2, truncate_str_of_le _ _ (h c (by simp)),
        ih (fun x hx => h x (List.mem_cons_of_mem c hx))]

theorem truncComps_sumLen_le (L : Nat) (l : List (List Char)) :
    sumLen (truncComps L l) ≤ sumLen l := by
  induction l with
  | nil => exact Nat.le_refl _
  | cons c rest ih =>
    cases rest with
    | nil =>
      rw [truncComps_single, sumLen_cons, sumLen_cons]
      have := truncate_comp_length_le L c
      omega
    | cons d ds =>
      rw [truncComps_cons2, sumLen_cons, sumLen_cons]
      have := truncate_str_length_le c L
      omega

theorem truncComps_sumLen_lt (L : Nat) (l : List (List Char))
    (h : ∃ c ∈ l, L < utf8Len c) : sumLen (truncComps L l) < sumLen l := by
  induction l with
  | nil =>
    obtain ⟨c, hc, _⟩ := h
    simp at hc
  | cons c rest ih =>
    cases rest with
    | nil =>
      obtain ⟨x, hx, hover⟩ := h
      rw [List.mem_singleton] at hx
      subst hx
      rw [truncComps_single, sumLen_cons, sumLen_cons]
      have := truncate_comp_length_lt L x hover
      omega
    | cons d ds =>
      rw [truncComps_cons2, sumLen_cons, sumLen_cons]
      obtain ⟨x, hx, hover⟩ := h
      rcases List.mem_cons.mp hx with hxc | hxrest
      · subst hxc
        have h1 := truncate_str_length_lt x L hover
        have h2 := truncComps_sumLen_le L (d :: ds)
        omega
      · have h1 := ih ⟨x, hxrest, hover⟩
        have h2 := truncate_str_length_le c L
        omega

theorem truncComps_length (L : Nat) (l : List (List Char)) :
    (truncComps L l).length = l.length := by
  induction l with
  | nil => rfl
  | cons c rest ih =>
    cases rest with
    | nil => rfl
    | cons d ds =>
      rw [truncComps_cons2]
      simp only [List.length_cons] at ih ⊢
      omega

theorem joinSep_length (l : List (List Char)) (h : l ≠ []) :
    (joinSep l).length + 1 = sumLen l + l.length := by
  induction l with
  | nil => exact absurd rfl h
  | cons c rest ih =>
    cases rest with
    | nil =>
      rw [joinSep_single]
      simp [sumLen]
    | cons d ds =>
      rw [joinSep_cons2]
      have hih := ih (by simp)
      simp only [sumLen_cons, List.length_append, List.length_cons] at *
      omega

theorem truncate_path_of_fit (L : Nat) (p : List Char)
    (h : ∀ c ∈ splitSep p, utf8Len c ≤ L) : truncate_path L p = p := by
  rw [truncate_path, truncComps_of_fit L _ h, joinSep_splitSep]

theorem truncate_path_length_lt (L : Nat) (p : List Char)
    (h : ∃ c ∈ splitSep p, L < utf8Len c) :
    (truncate_path L p).length < p.length := by
  have h1 := truncComps_sumLen_lt L (splitSep p) h
  have h2 := truncComps_length L (splitSep p)
  have hne : splitSep p ≠ [] := splitSep_ne_nil p
  have hne2 : truncComps L (splitSep p) ≠ [] := by
    intro hx
    apply hne
    have := congrArg List.length hx
    rw [h2] at this
    exact List.length_eq_zero.mp this
  have j1 := joinSep_length _ hne2
  have j2 := joinSep_length _ hne
  rw [truncate_path]
  conv_rhs => rw [← joinSep_splitSep p]
  omega

/-- Path truncation is the identity exactly when every component fits the
byte limit. -/
theorem truncate_path_eq_self_iff (L : Nat) (p : List Char) :
    truncate_path L p = p ↔ ∀ c ∈ splitSep p, utf8Len c ≤ L := by
  constructor
  · intro he
    by_contra hn
    push_neg at hn
    obtain ⟨c, hc, hover⟩ := hn
    have := truncate_path_length_lt L p ⟨c, hc, hover⟩
    rw [he] at this
    omega
  · exact truncate_path_of_fit L p


/-! ## Lemmas: plurality -/

section PluralityLemmas

variable {α : Type} [DecidableEq α]

theorem firstSeenAux_nil (f : Nat) : firstSeenAux (α := α) f [] = [] := by
  cases f <;> rfl

theorem mem_firstSeenAux (f : Nat) (l : List α) (x : α) (hf : l.length ≤ f) :
    x ∈ firstSeenAux f l ↔ x ∈ l := by
  induction f generalizing l with
  | zero =>
    have hl : l = [] := List.length_eq_zero.mp (Nat.le_zero.mp hf)
    subst hl
    simp [firstSeenAux]
  | succ f ih =>
    cases l with
    | nil => simp [firstSeenAux_nil]
    | cons y ys =>
      simp only [firstSeenAux, List.mem_cons]
      have hlen : (ys.filter (fun z => z ≠ y)).length ≤ f := by
        have h1 := List.length_filter_le (fun z => z ≠ y) ys
        simp only [List.length_cons] at hf
        omega
      rw [ih _ hlen]
      constructor
      · rintro (rfl | hx)
        · exact Or.inl rfl
        · exact Or.inr (List.mem_of_mem_filter hx)
      · rintro (rfl | hx)
        · exact Or.inl rfl
        · by_cases hxy : x = y
          · exact Or.inl hxy
          · exact Or.inr (List.mem_filter.mpr ⟨hx, by simpa using hxy⟩)

theorem mem_firstSeen (l : List α) (x : α) : x ∈ firstSeen l ↔ x ∈ l :=
  mem_firstSeenAux l.length l x (Nat.le_refl _)

theorem filter_indexOf_mono (p : α → Bool) (l : List α) (a b : α)
    (ha : a ∈ l.filter p) (hb : b ∈ l.filter p)
    (hab : (l.filter p).indexOf a < (l.filter p).indexOf b) :
    l.indexOf a < l.indexOf b := by
  induction l with
  | nil => simp at ha
  | cons x xs ih =>
    by_cases hpx : p x
    · rw [List.filter_cons_of_pos hpx] at ha hb hab
      by_cases hax : a = x
      · subst hax
        have hba : b ≠ a := by
          intro hba
          subst hba
          exact absurd hab (lt_irrefl _)
        rw [List.indexOf_cons_self, List.indexOf_cons_ne _ (Ne.symm hba)]
        exact Nat.succ_pos _
      · by_cases hbx : b = x
        · subst hbx
          rw [List.indexOf_cons_self] at hab
          exact absurd hab (Nat.not_lt_zero _)
        · have ha2 : a ∈ xs.filter p := by
            rcases List.mem_cons.mp ha with h | h
            · exact absurd h hax
            · exact h
          have hb2 : b ∈ xs.filter p := by
            rcases List.mem_cons.mp hb with h | h
            · exact absurd h hbx
            · exact h
          rw [List.indexOf_cons_ne _ (Ne.symm hax), List.indexOf_cons_ne _ (Ne.symm hbx)]
            at hab
          have := ih ha2 hb2 (by omega)
          rw [List.indexOf_cons_ne _ (Ne.symm hax), List.indexOf_cons_ne _ (Ne.symm hbx)]
          omega
    · rw [List.filter_cons_of_neg hpx] at ha hb hab
      have hax : a ≠ x := by
        intro h
        subst h
        exact absurd (List.mem_filter.mp ha).2 (by simpa using hpx)
      have hbx : b ≠ x := by
        intro h
        subst h
        exact absurd (List.mem_filter.mp hb).2 (by simpa using hpx)
      rw [List.indexOf_cons_ne _ (Ne.symm hax), List.indexOf_cons_ne _ (Ne.symm hbx)]
      have := ih ha hb hab
      omega

theorem firstSeenAux_pairwise (f : Nat) (l : List α) (hf : l.length ≤ f) :
    (firstSeenAux f l).Pairwise (fun a b => l.indexOf a < l.indexOf b) := by
  induction f generalizing l with
  | zero =>
    have hl : l = [] := List.length_eq_zero.mp (Nat.le_zero.mp hf)
    subst hl
    simp [firstSeenAux]
  | succ f ih =>
    cases l with
    | nil => simp [firstSeenAux_nil]
    | cons y ys =>
      simp only [firstSeenAux]
      rw [List.pairwise_cons]
      have hlen : (ys.filter (fun z => z ≠ y)).length ≤ f := by
        have h1 := List.length_filter_le (fun z => z ≠ y) ys
        simp only [List.length_cons] at hf
        omega
      constructor
      · intro b hb
        have hb2 : b ∈ ys.filter (fun z => z ≠ y) :=
          (mem_firstSeenAux f _ b hlen).mp hb
        have hbne : b ≠ y := by simpa using (List.mem_filter.mp hb2).2
        rw [List.indexOf_cons_self, List.indexOf_cons_ne _ (Ne.symm hbne)]
        exact Nat.succ_pos _
      · have hp := ih _ hlen
        refine List.Pairwise.imp_of_mem ?_ hp
        intro a b hma hmb hab
        have ha2 := (mem_firstSeenAux f _ a hlen).mp hma
        have hb2 := (mem_firstSeenAux f _ b hlen).mp hmb
        have hane : a ≠ y := by simpa using (List.mem_filter.mp ha2).2
        have hbne : b ≠ y := by simpa using (List.mem_filter.mp hb2).2
        have hmono := filter_indexOf_mono (fun z => z ≠ y) ys a b ha2 hb2 hab
        rw [List.indexOf_cons_ne _ (Ne.symm hane), List.indexOf_cons_ne _ (Ne.symm hbne)]
        omega

theorem firstSeen_pairwise (l : List α) :
    (firstSeen l).Pairwise (fun a b => l.indexOf a < l.indexOf b) :=
  firstSeenAux_pairwise l.length l (Nat.le_refl _)

theorem firstSeen_nil_iff (l : List α) : firstSeen l = [] ↔ l = [] := by
  cases l with
  | nil => simp [firstSeen, firstSeenAux_nil]
  | cons y ys => simp [firstSeen, List.length_cons, firstSeenAux]

theorem bestOf_mem (l : List α) (b : α) (xs : List α) : bestOf l b xs ∈ b :: xs := by
  induction xs generalizing b with
  | nil => simp [bestOf]
  | cons x xs ih =>
    simp only [bestOf]
    split_ifs with h
    · exact List.mem_cons_of_mem b (ih x)
    · rcases List.mem_cons.mp (ih b) with h1 | h1
      · rw [h1]
        exact List.mem_cons_self b _
      · exact List.mem_cons_of_mem b (List.mem_cons_of_mem x h1)

theorem bestOf_count_ge (l : List α) (b : α) (xs : List α) :
    ∀ y ∈ b :: xs, l.count y ≤ l.count (bestOf l b xs) := by
  induction xs generalizing b with
  | nil =>
    intro y hy
    rw [List.mem_singleton] at hy
    subst hy
    simp [bestOf]
  | cons x xs ih =>
    intro y hy
    simp only [bestOf]
    split_ifs with h
    · rcases List.mem_cons.mp hy with rfl | hy2
      · have hx := ih x x (List.mem_cons_self x xs)
        omega
      · exact ih x y hy2
    · rcases List.mem_cons.mp hy with rfl | hy2
      · exact ih y y (List.mem_cons_self y xs)
      · rcases List.mem_cons.mp hy2 with rfl | hy3
        · have hb := ih b b (List.mem_cons_self b xs)
          omega
        · exact ih b y (List.mem_cons_of_mem b hy3)

theorem bestOf_first_max (l : List α) (b : α) (xs : List α) :
    ∃ pre post, b :: xs = pre ++ bestOf l b xs :: post ∧
      ∀ y ∈ pre, l.count y < l.count (bestOf l b xs) := by
  induction xs generalizing b with
  | nil => exact ⟨[], [], by simp [bestOf], by simp⟩
  | cons x xs ih =>
    simp only [bestOf]
    split_ifs with h
    · obtain ⟨pre, post, heq, hpre⟩ := ih x
      refine ⟨b :: pre, post, ?_, ?_⟩
      · rw [List.cons_append, ← heq]
      · intro y hy
        rcases List.mem_cons.mp hy with rfl | hy2
        · have := bestOf_count_ge l x xs x (List.mem_cons_self x xs)
          omega
        · exact hpre y hy2
    · obtain ⟨pre, post, heq, hpre⟩ := ih b
      cases pre with
      | nil =>
        rw [List.nil_append] at heq
        injection heq with h1 h2
        exact ⟨[], x :: xs, by rw [List.nil_append, ← h1], by simp⟩
      | cons p0 pre2 =>
        rw [List.cons_append] at heq
        injection heq with h1 h2
        subst h1
        refine ⟨b :: x :: pre2, post, ?_, ?_⟩
        · rw [List.cons_append, List.cons_append, ← h2]
        · intro y hy
          have hbpre : l.count b < l.count (bestOf l b xs) :=
            hpre b (List.mem_cons_self b pre2)
          rcases List.mem_cons.mp hy with rfl | hy2
          · exact hbpre
          · rcases List.mem_cons.mp hy2 with rfl | hy3
            · omega
            · exact hpre y (List.mem_cons_of_mem b hy3)

/-- Full characterization of `plurality` on a nonempty list: it returns a
member together with its exact number of occurrences, the count is
maximal, and among the values attaining the maximal count the returned
one occurs earliest in the list. -/
theorem plurality_correct (l : List α) (v : α) (n : Nat)
    (h : plurality l = some (v, n)) :
    v ∈ l ∧ n = l.count v ∧ (∀ x ∈ l, l.count x ≤ n) ∧
      (∀ x ∈ l, l.count x = n → l.indexOf v ≤ l.indexOf x) := by
  unfold plurality at h
  rcases hfs : firstSeen l with _ | ⟨d, ds⟩
  · rw [hfs] at h
    simp at h
  · rw [hfs] at h
    simp only [Option.some.injEq, Prod.mk.injEq] at h
    obtain ⟨hv, hn⟩ := h
    subst hv
    subst hn
    refine ⟨?_, rfl, ?_, ?_⟩
    · have := bestOf_mem l d ds
      rw [← hfs] at this
      exact (mem_firstSeen l _).mp this
    · intro x hx
      have hx2 : x ∈ d :: ds := by
        rw [← hfs]
        exact (mem_firstSeen l x).mpr hx
      exact bestOf_count_ge l d ds x hx2
    · intro x hx hcnt
      obtain ⟨pre, post, heq, hpre⟩ := bestOf_first_max l d ds
      have hx2 : x ∈ pre ++ bestOf l d ds :: post := by
        rw [← heq, ← hfs]
        exact (mem_firstSeen l x).mpr hx
      have hpw := firstSeen_pairwise l
      rw [hfs, heq] at hpw
      rcases List.mem_append.mp hx2 with hxpre | hxw
      · have := hpre x hxpre
        omega
      · rcases List.mem_cons.mp hxw with rfl | hxpost
        · exact Nat.le_refl _
        · have h2 : (bestOf l d ds :: post).Pairwise
              (fun a b => l.indexOf a < l.indexOf b) :=
            hpw.sublist (List.sublist_append_right pre _)
          have := (List.pairwise_cons.mp h2).1 x hxpost
          omega

theorem plurality_eq_none_iff (l : List α) : plurality l = none ↔ l = [] := by
  unfold plurality
  rcases hfs : firstSeen l with _ | ⟨d, ds⟩
  · simp only
    constructor
    · intro _
      exact (firstSeen_nil_iff l).mp hfs
    · intro _
      trivial
  · simp only
    constructor
    · intro hcontra
      exact absurd hcontra (by simp)
    · intro hl
      subst hl
      rw [firstSeen_nil_iff ([] : List α) |>.mpr rfl] at hfs
      exact absurd hfs (by simp)

theorem plurality_of_constant (l : List α) (a : α) (hne : l ≠ [])
    (hall : ∀ x ∈ l, x = a) : plurality l = some (a, l.length) := by
  cases l with
  | nil => exact absurd rfl hne
  | cons y ys =>
    have hy : y = a := hall y (List.mem_cons_self y ys)
    subst hy
    have hfilter : ys.filter (fun z => z ≠ y) = [] := by
      rw [List.filter_eq_nil_iff]
      intro x hx
      have := hall x (List.mem_cons_of_mem y hx)
      simpa using this
    have hfs : firstSeen (y :: ys) = [y] := by
      simp only [firstSeen, List.length_cons, firstSeenAux, hfilter, firstSeenAux_nil]
    unfold plurality
    rw [hfs]
    simp only [bestOf]
    have hcount : (y :: ys).count y = (y :: ys).length := by
      rw [List.count_eq_length]
      intro b hb
      exact (hall b hb).symm
    rw [hcount]

end PluralityLemmas


/-! ## Lemmas: legalization -/

theorem legalize_stage_fst (L : Nat) (p : List Char) (repl : List Rule)
    (ext : List Char) :
    (legalize_stage L p repl ext).1 = truncate_path L (sanitize_path p repl ++ ext) := rfl

theorem legalize_stage_snd_true_iff (L : Nat) (p : List Char) (repl : List Rule)
    (ext : List Char) :
    (legalize_stage L p repl ext).2 = true ↔
      ¬ ∀ c ∈ splitSep (sanitize_path p repl ++ ext), utf8Len c ≤ L := by
  show (decide (truncate_path L (sanitize_path p repl ++ ext) ≠
    sanitize_path p repl ++ ext)) = true ↔ _
  rw [decide_eq_true_eq]
  constructor
  · intro hne hfit
    exact hne (truncate_path_of_fit L _ hfit)
  · intro hnfit heq
    exact hnfit ((truncate_path_eq_self_iff L _).mp heq)

/-- Case analysis for `legalize_path`: writing `s1` for the first stage's
truncated output and `q2` for the second stage's candidate (the user
rules re-applied to `s1`, plus the extension), the result is `(q2, false)`
when every component of `q2` fits the byte limit, and otherwise the
default-rule re-legalization of `s1`, flagged as truncated. -/
theorem legalize_path_eq_cases (L : Nat) (p : List Char) (repl : List Rule)
    (ext : List Char) :
    legalize_path L p repl ext =
      (if ∀ c ∈ splitSep
            (sanitize_path (truncate_path L (sanitize_path p repl ++ ext)) repl ++ ext),
          utf8Len c ≤ L
       then (sanitize_path (truncate_path L (sanitize_path p repl ++ ext)) repl ++ ext,
          false)
       else (truncate_path L
          (sanitize_path (truncate_path L (sanitize_path p repl ++ ext)) [] ++ ext),
          true)) := by
  have hs1 : (legalize_stage L p repl ext).1 =
      truncate_path L (sanitize_path p repl ++ ext) := rfl
  by_cases hfit : ∀ c ∈ splitSep
      (sanitize_path (truncate_path L (sanitize_path p repl ++ ext)) repl ++ ext),
      utf8Len c ≤ L
  · rw [if_pos hfit]
    have hflag : (legalize_stage L (truncate_path L (sanitize_path p repl ++ ext))
        repl ext).2 = false := by
      rw [← Bool.not_eq_true, legalize_stage_snd_true_iff]
      exact not_not_intro hfit
    show (if (legalize_stage L (legalize_stage L p repl ext).1 repl ext).2
        then ((legalize_stage L (legalize_stage L p repl ext).1 [] ext).1,
          (legalize_stage L (legalize_stage L p repl ext).1 repl ext).2)
        else ((legalize_stage L (legalize_stage L p repl ext).1 repl ext).1,
          (legalize_stage L (legalize_stage L p repl ext).1 repl ext).2)) = _
    rw [hs1, hflag]
    simp only [Bool.false_eq_true, if_false]
    rw [legalize_stage_fst, truncate_path_of_fit L _ hfit]
  · rw [if_neg hfit]
    have hflag : (legalize_stage L (truncate_path L (sanitize_path p repl ++ ext))
        repl ext).2 = true := by
      rw [legalize_stage_snd_true_iff]
      exact hfit
    show (if (legalize_stage L (legalize_stage L p repl ext).1 repl ext).2
        then ((legalize_stage L (legalize_stage L p repl ext).1 [] ext).1,
          (legalize_stage L (legalize_stage L p repl ext).1 repl ext).2)
        else ((legalize_stage L (legalize_stage L p repl ext).1 repl ext).1,
          (legalize_stage L (legalize_stage L p repl ext).1 repl ext).2)) = _
    rw [hs1, hflag]
    simp only [if_true]
    rw [legalize_stage_fst]


/-! ## Test fixtures

Concrete values from `test/test_util.py` (`TestPathLegalization` and
`TestPlurality`), used for validation and for witnesses/counterexamples. -/

/-- Test rule `(r"abcdX$", "1ST")`. -/
def ruleA1ST : Rule := (.litEnd ("abcdX".toList), "1ST".toList)

/-- Test rule `(r"abcdX$", "TOO_LONG")`. -/
def ruleATOO : Rule := (.litEnd ("abcdX".toList), "TOO_LONG".toList)

/-- Test rule `(r"1ST$", "2ND")`. -/
def rule1ST2ND : Rule := (.litEnd ("1ST".toList), "2ND".toList)

/-- Test rule `(r"1ST$", "TOO_LONG")`. -/
def rule1STTOO : Rule := (.litEnd ("1ST".toList), "TOO_LONG".toList)

/-- Test rule `(r"TOO_$", "2ND")`. -/
def ruleTOO2ND : Rule := (.litEnd ("TOO_".toList), "2ND".toList)

/-- Test rule `(r"TOO_$", "TOO_LONG")`. -/
def ruleTOOTOO : Rule := (.litEnd ("TOO_".toList), "TOO_LONG".toList)

/-- Test rule `(re.compile(r"foo"), "bar")`. -/
def ruleFooBar : Rule := (.lit ("foo".toList), "bar".toList)

/-- The three items of `test_get_most_common_tags`. -/
def items3 : List Item :=
  [⟨[], "aartist".toList, "album".toList, "label 1".toList, 0⟩,
   ⟨[], "aartist".toList, "album".toList, "label 2".toList, 0⟩,
   ⟨[], "aartist".toList, "another album".toList, "label 3".toList, 0⟩]

/-- The likely values asserted by `test_get_most_common_tags`. -/
def likelies3 : Likelies :=
  ⟨"aartist".toList, "aartist".toList, "album".toList, "label 1".toList, 0⟩

/-- The consensus flags asserted by `test_get_most_common_tags`. -/
def consensus3 : Consensus := ⟨true, true, false, false, true⟩

/-! Validation of the model against every test case of the suite. -/

example : truncate_path 5 ("abcdeX/fgh".toList) = "abcde/fgh".toList := by decide

example : truncate_path 5 ("abcde/fXX.ext".toList) = "abcde/f.ext".toList := by decide

example : truncate_path 5 ("a🎹/a.ext".toList) = "a🎹/a.ext".toList := by decide

example : truncate_path 5 ("ab🎹/a.ext".toList) = "ab/a.ext".toList := by decide

example : truncate_path 5 ("f.a.e".toList) = "f.a.e".toList := by decide

example : ∀ ch ∈ sanitize_path ("one/.two/three".toList) [], ch ≠ '.' := by decide

example : ∀ ch ∈ sanitize_path ("one/two./three".toList) [], ch ≠ '.' := by decide

example : ∀ ch ∈ sanitize_path (":*?\x22<>|".toList) [],
    ch ∉ [':', '*', '?', '\x22', '<', '>', '|'] := by decide

example : ∀ ch ∈ sanitize_path ("one/two /three".toList) [], ch ≠ ' ' := by decide

example : sanitize_path ("".toList) [] = "".toList := by decide

example : sanitize_path ("a/.?/b".toList) [ruleFooBar] = "a/.?/b".toList := by decide

example : sanitize_path ("foo/bar".toList) [ruleFooBar] = "bar/bar".toList := by decide

example : legalize_path 5 (":abcdX".toList) [] [] = ("_abcd".toList, false) := by decide

example : legalize_path 5 (":abcdX".toList) [ruleA1ST] [] = (":1ST".toList, false) := by
  decide

example : legalize_path 5 (":abcdX".toList) [ruleATOO] [] = (":TOO_".toList, false) := by
  decide

example : legalize_path 5 (":abcdX".toList) [ruleA1ST, rule1ST2ND] [] =
    (":2ND".toList, false) := by decide

example : legalize_path 5 (":abcdX".toList) [ruleATOO, ruleTOO2ND] [] =
    (":2ND".toList, false) := by decide

example : legalize_path 5 (":abcdX".toList) [ruleA1ST, rule1STTOO] [] =
    (":TOO_".toList, false) := by decide

example : legalize_path 5 (":abcdX".toList) [ruleATOO, ruleTOOTOO] [] =
    ("_TOO_".toList, true) := by decide

example : plurality [1, 1, 1, 1] = some (1, 4) := by decide

example : plurality [1, 1, 2, 1] = some (1, 3) := by decide

example : plurality [1, 1, 2, 2, 3] = some (1, 2) := by decide

example : plurality ([] : List Nat) = none := by decide

example : get_most_common_tags items3 = some (likelies3, consensus3) := by decide


/-! ## Claim theorems -/

/-- C1: when the sanitized candidate exceeds the byte limit in the first
round and again in the second round, `legalize_path` falls back to the
built-in default replacement rules, truncates that result by byte length,
and returns it with `truncated = true`; when the second round's candidate
is within the limit, that round's result is returned with
`truncated = false`. -/
theorem claim_C1_legalize_fallback (L : Nat) (p : List Char) (repl : List Rule)
    (ext : List Char) :
    ((¬ ∀ c ∈ splitSep (sanitize_path p repl ++ ext), utf8Len c ≤ L) →
      (¬ ∀ c ∈ splitSep
          (sanitize_path (truncate_path L (sanitize_path p repl ++ ext)) repl ++ ext),
          utf8Len c ≤ L) →
      legalize_path L p repl ext =
        (truncate_path L
          (sanitize_path (truncate_path L (sanitize_path p repl ++ ext)) [] ++ ext),
          true)) ∧
    ((∀ c ∈ splitSep
        (sanitize_path (truncate_path L (sanitize_path p repl ++ ext)) repl ++ ext),
        utf8Len c ≤ L) →
      legalize_path L p repl ext =
        (sanitize_path (truncate_path L (sanitize_path p repl ++ ext)) repl ++ ext,
          false)) := by
  constructor
  · intro _ h2
    rw [legalize_path_eq_cases, if_neg h2]
  · intro h2
    rw [legalize_path_eq_cases, if_pos h2]

/-- Witness for C1 at the `both_truncated_default_repl_applied` test case:
both rounds exceed the limit of 5 bytes, so the default-rule fallback is
returned with the truncated flag set. -/
theorem claim_C1_witness :
    legalize_path 5 (":abcdX".toList) [ruleATOO, ruleTOOTOO] [] =
      (truncate_path 5
        (sanitize_path
          (truncate_path 5 (sanitize_path (":abcdX".toList) [ruleATOO, ruleTOOTOO] ++ []))
          [] ++ []),
        true) :=
  (claim_C1_legalize_fallback 5 (":abcdX".toList) [ruleATOO, ruleTOOTOO] []).1
    (by decide) (by decide)

/-- C2 counterexample: with the rules of the `1st_truncated_2nd_valid`
test case, the final result `":2ND"` arises by applying the rule
`TOO_$ → 2ND` to the *previous round's truncated output* `":TOO_"` —
substitution chaining across rounds.  No application of the rule set (or
of the built-in defaults) to the original sanitized segment can produce
it: both are distinct from, and over the limit relative to, the returned
path. -/
theorem claim_C2_counterexample :
    legalize_path 5 (":abcdX".toList) [ruleATOO, ruleTOO2ND] [] =
      (":2ND".toList, false) ∧
    sanitize_path
      (truncate_path 5 (sanitize_path (":abcdX".toList) [ruleATOO, ruleTOO2ND] ++ []))
      [ruleATOO, ruleTOO2ND] = ":2ND".toList ∧
    truncate_path 5 (sanitize_path (":abcdX".toList) [ruleATOO, ruleTOO2ND]) ≠
      ":2ND".toList ∧
    truncate_path 5 (sanitize_path (":abcdX".toList) []) ≠ ":2ND".toList := by decide

/-- C2 amended: the second legalization round applies the same rule list
to the first round's (possibly truncated) output `s1`, not to the
original sanitized segment — substitution chaining between rounds does
occur — and the default fallback is likewise applied to `s1`. -/
theorem claim_C2_amended_chaining (L : Nat) (p : List Char) (repl : List Rule)
    (ext : List Char) :
    legalize_path L p repl ext =
      (if ∀ c ∈ splitSep
            (sanitize_path (truncate_path L (sanitize_path p repl ++ ext)) repl ++ ext),
          utf8Len c ≤ L
       then (sanitize_path (truncate_path L (sanitize_path p repl ++ ext)) repl ++ ext,
          false)
       else (truncate_path L
          (sanitize_path (truncate_path L (sanitize_path p repl ++ ext)) [] ++ ext),
          true)) :=
  legalize_path_eq_cases L p repl ext

/-- Witness for the amended C2 at the `1st_truncated_2nd_valid` test
case. -/
theorem claim_C2_amended_witness :
    legalize_path 5 (":abcdX".toList) [ruleATOO, ruleTOO2ND] [] =
      (":2ND".toList, false) := by
  rw [claim_C2_amended_chaining 5 (":abcdX".toList) [ruleATOO, ruleTOO2ND] []]
  decide

/-- C3 counterexample: with the single rule `abcdX$ → TOO_LONG` (the
`1st_truncated` test case) the pre-default-fallback candidate
`":TOO_LONG"` exceeds the 5-byte limit during processing, yet
`legalize_path` reports `truncated = false` — refuting the claimed
"exceeded at least once" characterization of the flag. -/
theorem claim_C3_counterexample :
    legalize_path 5 (":abcdX".toList) [ruleATOO] [] = (":TOO_".toList, false) ∧
    ¬ ∀ c ∈ splitSep (sanitize_path (":abcdX".toList) [ruleATOO] ++ []),
        utf8Len c ≤ 5 := by decide

/-- C3 amended: the `truncated` flag is true iff the *second* round's
candidate (the rule list re-applied to the first round's truncated
output) exceeds the byte limit; an excess in the first round alone
reports false. -/
theorem claim_C3_amended_flag_iff (L : Nat) (p : List Char) (repl : List Rule)
    (ext : List Char) :
    (legalize_path L p repl ext).2 = true ↔
      ¬ ∀ c ∈ splitSep
          (sanitize_path (truncate_path L (sanitize_path p repl ++ ext)) repl ++ ext),
          utf8Len c ≤ L := by
  rw [legalize_path_eq_cases]
  split_ifs with h
  · constructor
    · intro hfalse
      exact absurd hfalse (by simp)
    · intro hcontra
      exact absurd h hcontra
  · simpa using h

/-- Witness for the amended C3 at the `both_truncated_default_repl_applied`
test case: the second round's candidate is over the limit, so the flag is
true. -/
theorem claim_C3_amended_witness :
    (legalize_path 5 (":abcdX".toList) [ruleATOO, ruleTOOTOO] []).2 = true :=
  (claim_C3_amended_flag_iff 5 (":abcdX".toList) [ruleATOO, ruleTOOTOO] []).mpr
    (by decide)

/-- C4: truncation of a component with a recognizable dot-suffix removes
characters from the stem only and reattaches the extension intact; the
multi-dot filename `"f.a.e"` that fits the limit is unchanged, and the
two concrete 5-byte examples of the tests hold. -/
theorem claim_C4_extension_preserved :
    (∀ (L : Nat) (c : List Char), (splitext c).2 ≠ [] →
      ∃ s, s <+: (splitext c).1 ∧ truncate_comp L c = s ++ (splitext c).2) ∧
    truncate_path 5 ("f.a.e".toList) = "f.a.e".toList ∧
    truncate_path 5 ("abcdeX/fgh".toList) = "abcde/fgh".toList ∧
    truncate_path 5 ("abcde/fXX.ext".toList) = "abcde/f.ext".toList := by
  refine ⟨?_, by decide, by decide, by decide⟩
  intro L c he
  refine ⟨truncate_str (splitext c).1 (L - utf8Len (splitext c).2), ?_, ?_⟩
  · exact truncate_str_isPrefix _ _
  · unfold truncate_comp
    rw [if_neg he]

/-- Witness for C4 at the component `"fXX.ext"`. -/
theorem claim_C4_witness :
    ∃ s, s <+: (splitext ("fXX.ext".toList)).1 ∧
      truncate_comp 5 ("fXX.ext".toList) = s ++ (splitext ("fXX.ext".toList)).2 :=
  claim_C4_extension_preserved.1 5 ("fXX.ext".toList) (by decide)

/-- C5: bytewise truncation never emits a partial multi-byte character:
for every segment and byte limit the output is a character-level prefix
of the input (so its re-encoding is a complete valid sequence and a
prefix of the input's encoding) and fits the byte budget; a 4-byte
character at the boundary is dropped whole (`"ab🎹"` at 5 bytes gives
`"ab"`) while an exactly-fitting one is kept (`"a🎹"` at 5 bytes). -/
theorem claim_C5_no_partial_char :
    (∀ (s : List Char) (n : Nat),
      truncate_str s n <+: s ∧ utf8Len (truncate_str s n) ≤ n ∧
        utf8Encode (truncate_str s n) <+: utf8Encode s) ∧
    truncate_str ("ab🎹".toList) 5 = "ab".toList ∧
    truncate_str ("a🎹".toList) 5 = "a🎹".toList ∧
    truncate_path 5 ("ab🎹/a.ext".toList) = "ab/a.ext".toList := by
  refine ⟨?_, by decide, by decide, by decide⟩
  intro s n
  refine ⟨truncate_str_isPrefix s n, utf8Len_truncate_str_le s n, ?_⟩
  exact utf8Encode_isPrefix_of_isPrefix _ _ (truncate_str_isPrefix s n)


/-- Destructuring of a successful `get_most_common_tags` call: each output
slot is the `fieldStat` aggregation of the corresponding column, and the
`artist` slots are copied from the `albumartist` aggregation when any
record observes a non-empty `albumartist`. -/
theorem get_most_common_tags_some (items : List Item) (lk : Likelies) (cs : Consensus)
    (h : get_most_common_tags items = some (lk, cs)) :
    items ≠ [] ∧
    lk.albumartist = (fieldStat [] (items.map (fun i => i.albumartist))).1 ∧
    cs.albumartist = (fieldStat [] (items.map (fun i => i.albumartist))).2 ∧
    lk.year = (fieldStat 0 (items.map (fun i => i.year))).1 ∧
    cs.year = (fieldStat 0 (items.map (fun i => i.year))).2 ∧
    lk.label = (fieldStat [] (items.map (fun i => i.label))).1 ∧
    cs.label = (fieldStat [] (items.map (fun i => i.label))).2 ∧
    ((items.map (fun i => i.albumartist)).any (fun v => v ≠ []) = true →
      lk.artist = (fieldStat [] (items.map (fun i => i.albumartist))).1 ∧
      cs.artist = (fieldStat [] (items.map (fun i => i.albumartist))).2) := by
  cases items with
  | nil => simp [get_most_common_tags] at h
  | cons i0 irest =>
    simp only [get_most_common_tags, Option.some.injEq, Prod.mk.injEq] at h
    obtain ⟨hlk, hcs⟩ := h
    subst hlk
    subst hcs
    refine ⟨by simp, rfl, rfl, rfl, rfl, rfl, rfl, ?_⟩
    intro hov
    constructor
    · show (if ((i0 :: irest).map (fun i => i.albumartist)).any (fun v => v ≠ [])
          then (fieldStat [] ((i0 :: irest).map (fun i => i.albumartist))).1
          else (fieldStat [] ((i0 :: irest).map (fun i => i.artist))).1) = _
      rw [hov]
      simp
    · show (if ((i0 :: irest).map (fun i => i.albumartist)).any (fun v => v ≠ [])
          then (fieldStat [] ((i0 :: irest).map (fun i => i.albumartist))).2
          else (fieldStat [] ((i0 :: irest).map (fun i => i.artist))).2) = _
      rw [hov]
      simp

/-- C6 counterexample: with the unrelated custom rule `foo → bar` (test
`test_sanitize_with_custom_replace_overrides_built_in_sub`), the path
`"a/.?/b"` is returned unchanged — the built-in POSIX leading-dot
rewrite does *not* run — while the built-ins alone rewrite it to
`"a/__/b"`.  Supplying a custom rule therefore disables the built-in
substitutions. -/
theorem claim_C6_counterexample :
    sanitize_path ("a/.?/b".toList) [ruleFooBar] = "a/.?/b".toList ∧
    '.' ∈ sanitize_path ("a/.?/b".toList) [ruleFooBar] ∧
    sanitize_path ("a/.?/b".toList) [] = "a/__/b".toList := by decide

/-- C6 amended: caller-supplied custom rules are used *instead of* the
built-in replacement set — the built-ins run only when the custom list is
empty — and custom rules can add substitutions (the `foo → bar` test
case). -/
theorem claim_C6_amended_custom_replaces_builtin :
    (∀ (p : List Char) (repl : List Rule), repl ≠ [] →
      sanitize_path p repl = joinSep ((splitSep p).map (applyRules repl))) ∧
    sanitize_path ("a/.?/b".toList) [] ≠ sanitize_path ("a/.?/b".toList) [ruleFooBar] ∧
    sanitize_path ("foo/bar".toList) [ruleFooBar] = "bar/bar".toList := by
  refine ⟨?_, by decide, by decide⟩
  intro p repl hne
  unfold sanitize_path
  rw [if_neg hne]

/-- Witness for the amended C6 at the test input. -/
theorem claim_C6_amended_witness :
    sanitize_path ("a/.?/b".toList) [ruleFooBar] =
      joinSep ((splitSep ("a/.?/b".toList)).map (applyRules [ruleFooBar])) :=
  claim_C6_amended_custom_replaces_builtin.1 ("a/.?/b".toList) [ruleFooBar] (by decide)

/-- C7: `plurality` of a non-empty sequence returns a member of the
sequence with its exact occurrence count; the count is maximal; among
values attaining the maximal count, the returned value occurs earliest
in the input (first-seen tie-break); and the three concrete examples of
the test suite hold. -/
theorem claim_C7_plurality :
    (∀ (l : List Nat) (v n : Nat), plurality l = some (v, n) →
      v ∈ l ∧ n = l.count v ∧ (∀ x ∈ l, l.count x ≤ n) ∧
        (∀ x ∈ l, l.count x = n → l.indexOf v ≤ l.indexOf x)) ∧
    plurality [1, 1, 1, 1] = some (1, 4) ∧
    plurality [1, 1, 2, 1] = some (1, 3) ∧
    plurality [1, 1, 2, 2, 3] = some (1, 2) :=
  ⟨fun l v n h => plurality_correct l v n h, by decide, by decide, by decide⟩

/-- Witness for C7: applying the characterization at `[2, 5, 5]`. -/
theorem claim_C7_witness : (5 : Nat) ∈ [2, 5, 5] :=
  (claim_C7_plurality.1 [2, 5, 5] 5 2 (by decide)).1

/-- C8: `plurality` fails (returns `none`, modelling the
`ValueError`) exactly on the empty sequence — stated for the two value
types the aggregator uses — and this is the only error source: every
other operation of the model is a total function by construction. -/
theorem claim_C8_empty_error :
    (∀ l : List Nat, plurality l = none ↔ l = []) ∧
    (∀ l : List (List Char), plurality l = none ↔ l = []) ∧
    plurality ([] : List Nat) = none :=
  ⟨fun l => plurality_eq_none_iff l, fun l => plurality_eq_none_iff l, by decide⟩

/-- C9: whenever some record has a non-empty `albumartist`, the `artist`
slots of the result are copied from the `albumartist` aggregation — the
`artist` column itself is ignored — and the copied consensus flag is the
`albumartist` unanimity (`count = number of records`). -/
theorem claim_C9_override (items : List Item) (lk : Likelies) (cs : Consensus)
    (h : get_most_common_tags items = some (lk, cs))
    (hobs : (items.map (fun i => i.albumartist)).any (fun v => v ≠ []) = true) :
    lk.artist = (fieldStat [] (items.map (fun i => i.albumartist))).1 ∧
    cs.artist = (fieldStat [] (items.map (fun i => i.albumartist))).2 ∧
    lk.artist = lk.albumartist ∧ cs.artist = cs.albumartist ∧
    (∀ (v : List Char) (n : Nat),
      plurality (items.map (fun i => i.albumartist)) = some (v, n) →
        lk.artist = v ∧ cs.artist = decide (n = items.length)) := by
  obtain ⟨hne, haa1, haa2, _, _, _, _, hov⟩ := get_most_common_tags_some items lk cs h
  obtain ⟨har1, har2⟩ := hov hobs
  refine ⟨har1, har2, by rw [har1, haa1], by rw [har2, haa2], ?_⟩
  intro v n hp
  constructor
  · rw [har1]
    unfold fieldStat
    rw [hp]
  · rw [har2]
    unfold fieldStat
    rw [hp]
    simp [List.length_map]

/-- Witness for C9 at the three test items. -/
theorem claim_C9_witness :
    likelies3.artist = (fieldStat [] (items3.map (fun i => i.albumartist))).1 :=
  (claim_C9_override items3 likelies3 consensus3 (by decide) (by decide)).1

/-- C10 counterexample: in the `test_get_most_common_tags` scenario no
record observes a `year` (every item reports the zero default), the
likely value is the zero value — but the consensus flag is `true`, not
`false` as claimed (the test itself asserts `consensus["year"]`). -/
theorem claim_C10_counterexample :
    (∀ i ∈ items3, i.year = 0) ∧
    get_most_common_tags items3 = some (likelies3, consensus3) ∧
    likelies3.year = 0 ∧ consensus3.year = true := by decide

/-- C10 amended: a field with no non-empty observations is assigned its
type-appropriate zero value with `isConsensus = true` — all records
unanimously report the zero value (shown for the numeric `year` and the
string `label` fields). -/
theorem claim_C10_amended_zero_fields (items : List Item) (lk : Likelies)
    (cs : Consensus) (h : get_most_common_tags items = some (lk, cs)) :
    ((∀ i ∈ items, i.year = 0) → lk.year = 0 ∧ cs.year = true) ∧
    ((∀ i ∈ items, i.label = []) → lk.label = [] ∧ cs.label = true) := by
  obtain ⟨hne, _, _, hyr1, hyr2, hlb1, hlb2, _⟩ :=
    get_most_common_tags_some items lk cs h
  constructor
  · intro hz
    have hvne : items.map (fun i => i.year) ≠ [] := by
      intro hx
      exact hne (List.map_eq_nil_iff.mp hx)
    have hallz : ∀ x ∈ items.map (fun i => i.year), x = 0 := by
      intro x hx
      obtain ⟨i, hi, hix⟩ := List.mem_map.mp hx
      rw [← hix]
      exact hz i hi
    have hp := plurality_of_constant _ 0 hvne hallz
    constructor
    · rw [hyr1]
      unfold fieldStat
      rw [hp]
    · rw [hyr2]
      unfold fieldStat
      rw [hp]
      simp
  · intro hz
    have hvne : items.map (fun i => i.label) ≠ [] := by
      intro hx
      exact hne (List.map_eq_nil_iff.mp hx)
    have hallz : ∀ x ∈ items.map (fun i => i.label), x = [] := by
      intro x hx
      obtain ⟨i, hi, hix⟩ := List.mem_map.mp hx
      rw [← hix]
      exact hz i hi
    have hp := plurality_of_constant _ [] hvne hallz
    constructor
    · rw [hlb1]
      unfold fieldStat
      rw [hp]
    · rw [hlb2]
      unfold fieldStat
      rw [hp]
      simp

/-- Witness for the amended C10 at the three test items (no year
observed anywhere). -/
theorem claim_C10_amended_witness : likelies3.year = 0 ∧ consensus3.year = true :=
  (claim_C10_amended_zero_fields items3 likelies3 consensus3 (by decide)).1 (by decide)

end Beets
